import Mathlib

/-!
# Single-level decoder generator

A shallow embedding of `src/decoder_single_level/SingleLevelDecoderGenerator.cpp`.

* `std::vector<bool>` is a `List Bool`; position 0 is the least significant bit.
* Every `bv[i]` of the source is a checked access (`readBit`, `writeBit`): an
  access outside `0 .. bv.size() - 1` makes the whole operation `none`.
* A counting-up `for` loop carries a fuel argument next to its index; running
  out of fuel is `none` as well.  The callers pass `bv.length + 1`, and the
  theorems below show that the result is always a `some`.
* The `const int n` of the source is an argument of `genDecoder`.
* Two things the language leaves open are arguments as well: `ub`, the `int`
  that the conversion of an infinite or NaN `digit_diff` gives (the least `int`
  on x86-64), and `junk`, the first content of the `char` array of
  `intToBinaryString`.
-/

namespace SingleLevelDecoder

/-! ## Checked vector accesses -/

/-- Read `bv[i]`; `none` when `i` is not a position of `bv`. -/
def readBit (bv : List Bool) (i : Nat) : Option Bool :=
  bv[i]?

/-- Write `bv[i] = b`; `none` when `i` is not a position of `bv`. -/
def writeBit (bv : List Bool) (i : Nat) (b : Bool) : Option (List Bool) :=
  if i < bv.length then some (bv.set i b) else none

/-! ## The bit-pattern counter (source lines 147-182) -/

/-- Loop of `isEmpty`: `for (int i = 0; i < bv.size(); i++) if (bv[i] == 1) return false;`
followed by `return true;`. -/
def isEmptyLoop (bv : List Bool) : Nat → Nat → Option Bool
  | 0, _ => none
  | fuel + 1, i =>
    if i < bv.length then
      match readBit bv i with
      | none => none
      | some true => some false
      | some false => isEmptyLoop bv fuel (i + 1)
    else some true

/-- Source function `isEmpty`. -/
def isEmpty (bv : List Bool) : Option Bool :=
  isEmptyLoop bv (bv.length + 1) 0

/-- Loop of `increment`: at position `i`, a 0 entry is set to 1 and the loop
breaks; a 1 entry is set to 0 and the loop goes on with `i + 1`. -/
def incrementLoop : Nat → Nat → List Bool → Option (List Bool)
  | 0, _, _ => none
  | fuel + 1, i, bv =>
    if i < bv.length then
      match readBit bv i with
      | none => none
      | some false => writeBit bv i true
      | some true =>
        match writeBit bv i false with
        | none => none
        | some bv1 => incrementLoop fuel (i + 1) bv1
    else some bv

/-- Source function `increment`. -/
def increment (bv : List Bool) : Option (List Bool) :=
  incrementLoop (bv.length + 1) 0 bv

/-- Inner loop of `decrement`: `while (i > 0) { i--; bv[i] = 1; }`. -/
def borrowLoop : Nat → List Bool → Option (List Bool)
  | 0, bv => some bv
  | i + 1, bv =>
    match writeBit bv i true with
    | none => none
    | some bv1 => borrowLoop i bv1

/-- Outer loop of the borrow branch of `decrement`:
`for (int i = 1; i < bv.size(); i++)`, which at the first 1 entry clears it,
runs the inner loop and breaks. -/
def decrementLoop : Nat → Nat → List Bool → Option (List Bool)
  | 0, _, _ => none
  | fuel + 1, i, bv =>
    if i < bv.length then
      match readBit bv i with
      | none => none
      | some true =>
        match writeBit bv i false with
        | none => none
        | some bv1 => borrowLoop i bv1
      | some false => decrementLoop fuel (i + 1) bv
    else some bv

/-- Source function `decrement`. -/
def decrement (bv : List Bool) : Option (List Bool) :=
  match isEmpty bv with
  | none => none
  | some true => some bv
  | some false =>
    match readBit bv 0 with
    | none => none
    | some true => writeBit bv 0 false
    | some false => decrementLoop (bv.length + 1) 1 bv

/-! ## The generator loop (source lines 111-137) -/

/-- Integer part of the base `b` logarithm of `x ≥ 1`, by repeated division;
`fuel` bounds the number of divisions and `x` itself is always enough. -/
def floorLog (b : Nat) : Nat → Nat → Nat
  | 0, _ => 0
  | fuel + 1, x => if x < b then 0 else floorLog b fuel (x / b) + 1

/-- Global `log2n = log2(n)` converted to `int`: for `1 ≤ n < 2^31` the
double logarithm truncates to the integer logarithm. -/
def log2n (n : Nat) : Nat :=
  floorLog 2 n n

/-- Local `lower_range` of `genDecoder`. -/
def lower_range : Nat := 0

/-- One literal of a product term: `input(j)`, or `not input(j)` when
`negated` is set. -/
structure Literal where
  negated : Bool
  input : Nat
deriving DecidableEq, Repr

/-- Text written by one pass of the renderer loop (source lines 130-133). -/
def Literal.text (l : Literal) : String :=
  (if l.negated then "not " else "") ++ ("input(" ++ toString l.input ++ ")")
    ++ (if l.input > lower_range then " and " else ";\n")

/-- Renderer loop `for (int j = upper_range; j >= lower_range; j--)`; the
argument is `j + 1`, so that the call with `log2n` starts at
`upper_range = log2n - 1` and the loop ends below `lower_range = 0`. -/
def literalLoop (bv : List Bool) : Nat → Option (List Literal)
  | 0 => some []
  | j + 1 =>
    match readBit bv (j - lower_range) with
    | none => none
    | some b =>
      match literalLoop bv j with
      | none => none
      | some rest => some ({ negated := (b == false), input := j } :: rest)

/-- Value of `floor(log10(x)) + 1` for an integer `x ≥ 1`: its number of
decimal digits. -/
def decimalDigits (x : Nat) : Nat :=
  floorLog 10 x x + 1

/-- Local `digit_diff` (source line 121).  When `i = 0` or `n - 1 = 0` the
double expression is infinite or NaN, and the language leaves its conversion
to `int` open; `ub` stands for the value the conversion gives. -/
def digit_diff (ub : Int) (n i : Nat) : Int :=
  if n - 1 = 0 ∨ i = 0 then ub
  else (decimalDigits (n - 1) : Int) - (decimalDigits i : Int)

/-- Local `padding` at the end of source line 125. -/
def padding (ub : Int) (n i : Nat) : String :=
  let p := if digit_diff ub n i > 0
    then String.mk (List.replicate (digit_diff ub n i).toNat ' ') else ""
  if i = 0 then p ++ " " else p

/-- What one iteration of the generator loop works on and writes: the loop
index, the bit vector at the start of the iteration, the padding and the
literals of the product term. -/
structure Row where
  index : Nat
  bv : List Bool
  pad : String
  lits : List Literal
deriving DecidableEq, Repr

/-- Text after the arrow on one line: the renderer loop's writes in order. -/
def termText : List Literal → String
  | [] => ""
  | l :: rest => l.text ++ termText rest

/-- Text of one iteration (source lines 127-134). -/
def Row.text (r : Row) : String :=
  "output" ++ "(" ++ toString r.index ++ ")" ++ r.pad ++ " <= " ++ termText r.lits

/-- Generator loop `for (int i = n - 1; i >= 0; i--)`; the argument is
`i + 1`. -/
def genLoop (ub : Int) (n : Nat) : Nat → List Bool → Option (List Row)
  | 0, _ => some []
  | i + 1, bv =>
    match literalLoop bv (log2n n) with
    | none => none
    | some lits =>
      match decrement bv with
      | none => none
      | some bv1 =>
        match genLoop ub n i bv1 with
        | none => none
        | some rest =>
          some ({ index := i, bv := bv, pad := padding ub n i, lits := lits } :: rest)

/-- The enumeration of `genDecoder`: the vector `bv(log2(n), 1)` and the
generator loop started at `i = n - 1`. -/
def genDecoder (ub : Int) (n : Nat) : Option (List Row) :=
  genLoop ub n n (List.replicate (log2n n) true)

/-! ## Specification-side notions -/

/-- Numeric value of a bit vector, position 0 least significant. -/
def value : List Bool → Nat
  | [] => 0
  | b :: t => b.toNat + 2 * value t

/-- Apply `decrement` `m` times in a row. -/
def decrementN : Nat → List Bool → Option (List Bool)
  | 0, bv => some bv
  | m + 1, bv =>
    match decrement bv with
    | none => none
    | some bv1 => decrementN m bv1

/-- Truth value of a literal under an assignment of the inputs. -/
def Literal.eval (env : Nat → Bool) (l : Literal) : Bool :=
  if l.negated then !(env l.input) else env l.input

/-- Truth value of the conjunction of a list of literals. -/
def evalConj (env : Nat → Bool) (lits : List Literal) : Bool :=
  lits.all (Literal.eval env)

/-- The assignment that sets `input(j)` to bit `j` of `m`. -/
def bitsOf (m : Nat) : Nat → Bool :=
  fun j => m.testBit j

/-- The literals of positions `j - 1` down to `0` of a vector, as a total
function: position `t` is negated exactly when `bv[t]` is false. -/
def litsOf (bv : List Bool) : Nat → List Literal
  | 0 => []
  | j + 1 => { negated := (bv.getD j false == false), input := j } :: litsOf bv j

/-- The spec's `literal_j`: `input(j)` when bit `j` is true, else
`not input(j)`. -/
def literalName (bv : List Bool) (j : Nat) : String :=
  if bv.getD j false then "input(" ++ toString j ++ ")"
  else "not input(" ++ toString j ++ ")"

/-- Join texts with ` and ` between neighbours. -/
def andJoin : List String → String
  | [] => ""
  | [a] => a
  | a :: b :: t => a ++ " and " ++ andJoin (b :: t)

/-- The spec's names `literal_{j-1}, ..., literal_0`, most significant first. -/
def literalNames (bv : List Bool) : Nat → List String
  | 0 => []
  | j + 1 => literalName bv j :: literalNames bv j

/-- Text of one line up to the arrow: `output(i)` and the padding. -/
def Row.lhs (r : Row) : String :=
  "output" ++ "(" ++ toString r.index ++ ")" ++ r.pad

/-- One counter operation. -/
inductive Op where
  | inc
  | dec
deriving DecidableEq, Repr

/-- Apply a sequence of `increment` and `decrement` operations in order. -/
def applyOps : List Op → List Bool → Option (List Bool)
  | [], bv => some bv
  | Op.inc :: ops, bv =>
    match increment bv with
    | none => none
    | some bv1 => applyOps ops bv1
  | Op.dec :: ops, bv =>
    match decrement bv with
    | none => none
    | some bv1 => applyOps ops bv1

/-- The minterm of `m` over the inputs `j - 1` down to `0`: `input(t)` is
negated exactly when bit `t` of `m` is 0. -/
def minterm (m : Nat) : Nat → List Literal
  | 0 => []
  | j + 1 => { negated := !(m.testBit j), input := j } :: minterm m j

/-! ## intToBinaryString (source lines 184-208) -/

/-- Checked write `str[idx] = c` into a `char` array, `idx` being an `int`;
`none` when `idx` is negative or not below the array's length. -/
def writeChar (str : List Char) (idx : Int) (c : Char) : Option (List Char) :=
  if 0 ≤ idx ∧ idx < str.length then some (str.set idx.toNat c) else none

/-- First loop of `intToBinaryString`:
`for (int j = 0; j < size; j++) str[j] = '0';`. -/
def zeroLoop (size : Nat) : Nat → Nat → List Char → Option (List Char)
  | 0, _, _ => none
  | fuel + 1, j, str =>
    if j < size then
      match writeChar str j '0' with
      | none => none
      | some str1 => zeroLoop size fuel (j + 1) str1
    else some str

/-- Second loop of `intToBinaryString`:
`while (i > 0) { j = floor(log2(i)); i -= pow(2, j); str[size - j - 1] = '1'; }`. -/
def onesLoop (size : Nat) : Nat → Nat → List Char → Option (List Char)
  | 0, _, _ => none
  | fuel + 1, i, str =>
    if i > 0 then
      match writeChar str ((size : Int) - (floorLog 2 i i : Int) - 1) '1' with
      | none => none
      | some str1 => onesLoop size fuel (i - 2 ^ floorLog 2 i i) str1
    else some str

/-- Construction `std::string s(str)` from a `char` array: the characters
before the first NUL; `none` when the array holds no NUL. -/
def cString (str : List Char) : Option String :=
  if Char.ofNat 0 ∈ str then some (String.mk (str.takeWhile (fun c => c != Char.ofNat 0)))
  else none

/-- Source function `intToBinaryString` for `i ≥ 1`.  The array `str` has
`size + 1` entries that start out indeterminate; `junk` stands for what they
hold. -/
def intToBinaryString (junk : Char) (i : Nat) : Option String :=
  match zeroLoop (floorLog 2 i i + 1) (floorLog 2 i i + 1 + 1) 0
      (List.replicate (floorLog 2 i i + 1 + 1) junk) with
  | none => none
  | some str0 =>
    match onesLoop (floorLog 2 i i + 1) (floorLog 2 i i + 1 + 1) i str0 with
    | none => none
    | some str1 =>
      match writeChar str1 ((floorLog 2 i i + 1 : Nat) : Int) (Char.ofNat 0) with
      | none => none
      | some str2 => cString str2

/-- Read a list of characters as a base-2 numeral, most significant digit
first. -/
def parseBinary (s : List Char) : Nat :=
  s.foldl (fun acc c => 2 * acc + (if c = '1' then 1 else 0)) 0

/-- The `w`-digit binary numeral of `x < 2^w`, most significant digit first. -/
def binMSB : Nat → Nat → List Char
  | 0, _ => []
  | w + 1, x => if 2 ^ w ≤ x then '1' :: binMSB w (x - 2 ^ w) else '0' :: binMSB w x

/-! ## Checked accesses on a split vector -/

theorem readBit_append (pre suf : List Bool) (b : Bool) :
    readBit (pre ++ b :: suf) pre.length = some b := by
  unfold readBit
  rw [List.getElem?_append_right (Nat.le_refl _)]
  simp

theorem writeBit_append (pre suf : List Bool) (b c : Bool) :
    writeBit (pre ++ b :: suf) pre.length c = some (pre ++ c :: suf) := by
  simp [writeBit]

/-! ## isEmpty -/

theorem isEmptyLoop_append (suf : List Bool) :
    ∀ (pre : List Bool) (fuel : Nat), suf.length < fuel →
      isEmptyLoop (pre ++ suf) fuel pre.length = some (suf.all (fun b => !b)) := by
  induction suf with
  | nil =>
    intro pre fuel h
    cases fuel with
    | zero => omega
    | succ f => simp [isEmptyLoop]
  | cons b t ih =>
    intro pre fuel h
    cases fuel with
    | zero => omega
    | succ f =>
      have h1 : t.length < f := by simpa using h
      have h2 := ih (pre ++ [b]) f h1
      simp only [List.append_assoc, List.singleton_append, List.length_append,
        List.length_singleton] at h2
      cases b with
      | true => simp [isEmptyLoop, readBit_append]
      | false => simp [isEmptyLoop, readBit_append, h2]

theorem isEmpty_eq (bv : List Bool) : isEmpty bv = some (bv.all (fun b => !b)) := by
  have h := isEmptyLoop_append bv [] (bv.length + 1) (Nat.lt_succ_self _)
  simpa [isEmpty] using h

/-! ## increment -/

theorem incrementLoop_carry (rest : List Bool) :
    ∀ (p : Nat) (pre : List Bool) (fuel : Nat), p < fuel →
      incrementLoop fuel pre.length (pre ++ (List.replicate p true ++ false :: rest))
        = some (pre ++ (List.replicate p false ++ true :: rest)) := by
  intro p
  induction p with
  | zero =>
    intro pre fuel h
    cases fuel with
    | zero => omega
    | succ f => simp [incrementLoop, readBit_append, writeBit_append]
  | succ p ih =>
    intro pre fuel h
    cases fuel with
    | zero => omega
    | succ f =>
      have h2 := ih (pre ++ [false]) f (by omega)
      simp only [List.append_assoc, List.singleton_append, List.length_append,
        List.length_singleton] at h2
      simp [incrementLoop, List.replicate_succ, readBit_append, writeBit_append, h2]

theorem incrementLoop_wrap :
    ∀ (p : Nat) (pre : List Bool) (fuel : Nat), p < fuel →
      incrementLoop fuel pre.length (pre ++ List.replicate p true)
        = some (pre ++ List.replicate p false) := by
  intro p
  induction p with
  | zero =>
    intro pre fuel h
    cases fuel with
    | zero => omega
    | succ f => simp [incrementLoop]
  | succ p ih =>
    intro pre fuel h
    cases fuel with
    | zero => omega
    | succ f =>
      have h2 := ih (pre ++ [false]) f (by omega)
      simp only [List.append_assoc, List.singleton_append, List.length_append,
        List.length_singleton] at h2
      simp [incrementLoop, List.replicate_succ, readBit_append, writeBit_append, h2]

theorem increment_carry (p : Nat) (rest : List Bool) :
    increment (List.replicate p true ++ false :: rest)
      = some (List.replicate p false ++ true :: rest) := by
  have h := incrementLoop_carry rest p []
    ((List.replicate p true ++ false :: rest).length + 1) (by simp; omega)
  simpa [increment] using h

theorem increment_wrap (p : Nat) :
    increment (List.replicate p true) = some (List.replicate p false) := by
  have h := incrementLoop_wrap p [] ((List.replicate p true).length + 1) (by simp)
  simpa [increment] using h

/-! ## decrement -/

theorem borrowLoop_append :
    ∀ (pre suf : List Bool),
      borrowLoop pre.length (pre ++ suf) = some (List.replicate pre.length true ++ suf) := by
  intro pre
  induction pre using List.reverseRecOn with
  | nil => intro suf; simp [borrowLoop]
  | append_singleton pre b ih =>
    intro suf
    have h1 : writeBit (pre ++ [b] ++ suf) pre.length true = some (pre ++ true :: suf) := by
      simpa using writeBit_append pre suf b true
    have h2 := ih (true :: suf)
    simp only [List.length_append, List.length_singleton, borrowLoop, h1, h2]
    simp [List.replicate_succ', List.append_assoc]

theorem decrementLoop_borrow (rest : List Bool) :
    ∀ (m : Nat) (pre : List Bool) (fuel : Nat), m < fuel →
      decrementLoop fuel pre.length (pre ++ (List.replicate m false ++ true :: rest))
        = some (List.replicate (pre.length + m) true ++ false :: rest) := by
  intro m
  induction m with
  | zero =>
    intro pre fuel h
    cases fuel with
    | zero => omega
    | succ f =>
      simp [decrementLoop, readBit_append, writeBit_append, borrowLoop_append]
  | succ m ih =>
    intro pre fuel h
    cases fuel with
    | zero => omega
    | succ f =>
      have h2 := ih (pre ++ [false]) f (by omega)
      simp only [List.append_assoc, List.singleton_append, List.length_append,
        List.length_singleton] at h2
      simp [decrementLoop, List.replicate_succ, readBit_append, h2]
      omega

theorem isEmpty_of_mem (bv : List Bool) (h : true ∈ bv) : isEmpty bv = some false := by
  rw [isEmpty_eq]
  simpa using h

theorem decrement_borrow (p : Nat) (rest : List Bool) :
    decrement (List.replicate p false ++ true :: rest)
      = some (List.replicate p true ++ false :: rest) := by
  cases p with
  | zero =>
    have hE : isEmpty (true :: rest) = some false := isEmpty_of_mem _ (by simp)
    simp [decrement, hE, readBit, writeBit]
  | succ p =>
    have hE : isEmpty (false :: (List.replicate p false ++ true :: rest)) = some false :=
      isEmpty_of_mem _ (by simp)
    have h := decrementLoop_borrow rest p [false]
      ((List.replicate (p + 1) false ++ true :: rest).length + 1) (by simp; omega)
    simp only [List.length_singleton, List.singleton_append] at h
    rw [show 1 + p = p + 1 by omega] at h
    simp only [List.replicate_succ, List.cons_append] at h ⊢
    simp only [decrement, hE, readBit, List.getElem?_cons_zero]
    exact h

theorem decrement_allFalse (bv : List Bool) (h : ∀ b ∈ bv, b = false) :
    decrement bv = some bv := by
  have hE : isEmpty bv = some true := by
    rw [isEmpty_eq]
    simp only [Option.some.injEq, List.all_eq_true, Bool.not_eq_true']
    exact h
  simp [decrement, hE]

/-! ## Shape of a vector around its lowest set or lowest clear position -/

theorem split_lowest_true (v : List Bool) (h : true ∈ v) :
    ∃ p rest, v = List.replicate p false ++ true :: rest := by
  induction v with
  | nil => simp at h
  | cons b t ih =>
    cases b with
    | true => exact ⟨0, t, by simp⟩
    | false =>
      have ht : true ∈ t := by simpa using h
      obtain ⟨p, rest, hp⟩ := ih ht
      exact ⟨p + 1, rest, by simp [hp, List.replicate_succ]⟩

theorem split_lowest_false (v : List Bool) (h : false ∈ v) :
    ∃ p rest, v = List.replicate p true ++ false :: rest := by
  induction v with
  | nil => simp at h
  | cons b t ih =>
    cases b with
    | false => exact ⟨0, t, by simp⟩
    | true =>
      have ht : false ∈ t := by simpa using h
      obtain ⟨p, rest, hp⟩ := ih ht
      exact ⟨p + 1, rest, by simp [hp, List.replicate_succ]⟩

theorem getElem?_replicate_append_lt (b : Bool) (p j : Nat) (l : List Bool) (h : j < p) :
    (List.replicate p b ++ l)[j]? = some b := by
  rw [List.getElem?_append_left (by simpa using h)]
  simp [List.getElem?_replicate, h]

theorem getElem?_replicate_append_at (b c : Bool) (p : Nat) (l : List Bool) :
    (List.replicate p b ++ c :: l)[p]? = some c := by
  rw [List.getElem?_append_right (by simp)]
  simp

theorem getElem?_replicate_append_gt (b b1 c c1 : Bool) (p j : Nat) (l : List Bool)
    (h : p < j) :
    (List.replicate p b ++ c :: l)[j]? = (List.replicate p b1 ++ c1 :: l)[j]? := by
  obtain ⟨d, rfl⟩ : ∃ d, j = p + (d + 1) := ⟨j - p - 1, by omega⟩
  rw [List.getElem?_append_right (by simp), List.getElem?_append_right (by simp)]
  simp

/-! ## Numeric value -/

theorem value_nil : value [] = 0 := rfl

theorem value_cons (b : Bool) (t : List Bool) : value (b :: t) = b.toNat + 2 * value t := rfl

theorem value_replicate_false_append (p : Nat) (l : List Bool) :
    value (List.replicate p false ++ l) = 2 ^ p * value l := by
  induction p with
  | zero => simp
  | succ p ih =>
    simp only [List.replicate_succ, List.cons_append, value_cons, ih, Bool.toNat_false]
    rw [Nat.pow_succ]
    ring

theorem value_replicate_true_append (p : Nat) (l : List Bool) :
    value (List.replicate p true ++ l) + 1 = 2 ^ p * (value l + 1) := by
  induction p with
  | zero => simp
  | succ p ih =>
    simp only [List.replicate_succ, List.cons_append, value_cons, Bool.toNat_true]
    rw [Nat.pow_succ]
    have : 1 + 2 * value (List.replicate p true ++ l) + 1
        = 2 * (value (List.replicate p true ++ l) + 1) := by ring
    rw [this, ih]
    ring

theorem value_replicate_true (k : Nat) : value (List.replicate k true) + 1 = 2 ^ k := by
  have h := value_replicate_true_append k []
  simpa [value_nil] using h

theorem value_replicate_false (k : Nat) : value (List.replicate k false) = 0 := by
  have h := value_replicate_false_append k []
  simpa [value_nil] using h

theorem value_lt (v : List Bool) : value v < 2 ^ v.length := by
  induction v with
  | nil => simp [value_nil]
  | cons b t ih =>
    simp only [value_cons, List.length_cons, Nat.pow_succ]
    cases b <;> simp <;> omega

theorem eq_replicate_of_value_zero (v : List Bool) (h : value v = 0) :
    v = List.replicate v.length false := by
  induction v with
  | nil => rfl
  | cons b t ih =>
    simp only [value_cons] at h
    cases b with
    | true => simp at h
    | false =>
      have ht : value t = 0 := by simpa using h
      rw [List.length_cons, List.replicate_succ, ← ih ht]

theorem mem_true_of_value_pos (v : List Bool) (h : 0 < value v) : true ∈ v := by
  by_contra hc
  have hall : v = List.replicate v.length false := by
    rw [List.eq_replicate_iff]
    refine ⟨rfl, ?_⟩
    intro b hb
    cases b with
    | false => rfl
    | true => exact absurd hb hc
  rw [hall, value_replicate_false] at h
  omega

/-- What `decrement` does to the value, on every vector: it returns, keeps
the length and subtracts one, stopping at zero. -/
theorem decrement_value (v : List Bool) :
    ∃ v1, decrement v = some v1 ∧ v1.length = v.length ∧ value v1 = value v - 1 := by
  by_cases h : true ∈ v
  · obtain ⟨p, rest, rfl⟩ := split_lowest_true v h
    refine ⟨_, decrement_borrow p rest, by simp, ?_⟩
    have h1 := value_replicate_true_append p (false :: rest)
    have h2 := value_replicate_false_append p (true :: rest)
    simp only [value_cons, Bool.toNat_false, Bool.toNat_true] at h1 h2
    rw [h2, show 1 + 2 * value rest = 0 + 2 * value rest + 1 by ring, ← h1]
    omega
  · have hall : ∀ b ∈ v, b = false := by
      intro b hb
      cases b with
      | false => rfl
      | true => exact absurd hb h
    refine ⟨v, decrement_allFalse v hall, rfl, ?_⟩
    have hv : v = List.replicate v.length false := by
      rw [List.eq_replicate_iff]; exact ⟨rfl, hall⟩
    rw [hv, value_replicate_false]

theorem decrementN_value :
    ∀ (m : Nat) (v : List Bool),
      ∃ v1, decrementN m v = some v1 ∧ v1.length = v.length ∧ value v1 = value v - m := by
  intro m
  induction m with
  | zero => intro v; exact ⟨v, rfl, rfl, by simp⟩
  | succ m ih =>
    intro v
    obtain ⟨v1, h1, hl1, hv1⟩ := decrement_value v
    obtain ⟨v2, h2, hl2, hv2⟩ := ih v1
    refine ⟨v2, by simp [decrementN, h1, h2], by omega, by omega⟩

/-! ## The renderer loop -/

theorem readBit_eq_getD (bv : List Bool) (j : Nat) (h : j < bv.length) :
    readBit bv j = some (bv.getD j false) := by
  simp [readBit, List.getD, List.getElem?_eq_getElem h]

theorem literalLoop_eq (bv : List Bool) :
    ∀ j, j ≤ bv.length → literalLoop bv j = some (litsOf bv j) := by
  intro j
  induction j with
  | zero => intro _; rfl
  | succ j ih =>
    intro h
    have h1 := readBit_eq_getD bv j (by omega)
    have h2 := ih (by omega)
    simp [literalLoop, lower_range, h1, h2, litsOf]

theorem litsOf_length (bv : List Bool) : ∀ j, (litsOf bv j).length = j := by
  intro j
  induction j with
  | zero => rfl
  | succ j ih => simp [litsOf, ih]

theorem litsOf_input (bv : List Bool) :
    ∀ j, (litsOf bv j).map Literal.input = (List.range j).reverse := by
  intro j
  induction j with
  | zero => rfl
  | succ j ih => simp [litsOf, ih, List.range_succ]

theorem evalConj_litsOf (env : Nat → Bool) (bv : List Bool) :
    ∀ j, evalConj env (litsOf bv j) = true ↔ ∀ t, t < j → env t = bv.getD t false := by
  intro j
  induction j with
  | zero => simp [evalConj, litsOf]
  | succ j ih =>
    have hcons : evalConj env (litsOf bv (j + 1))
        = (Literal.eval env { negated := (bv.getD j false == false), input := j }
            && evalConj env (litsOf bv j)) := by
      simp [evalConj, litsOf]
    rw [hcons, Bool.and_eq_true, ih]
    have hlit : Literal.eval env { negated := (bv.getD j false == false), input := j } = true
        ↔ env j = bv.getD j false := by
      cases hb : bv.getD j false <;> cases he : env j <;> simp [Literal.eval, hb, he]
    rw [hlit]
    constructor
    · rintro ⟨h0, h1⟩ t ht
      rcases Nat.lt_succ_iff_lt_or_eq.mp ht with h | h
      · exact h1 t h
      · rw [h]; exact h0
    · intro h
      exact ⟨h j (Nat.lt_succ_self j), fun t ht => h t (Nat.lt_succ_of_lt ht)⟩

theorem testBit_value (v : List Bool) : ∀ t, (value v).testBit t = v.getD t false := by
  induction v with
  | nil => intro t; simp [value_nil]
  | cons b tl ih =>
    intro t
    cases t with
    | zero =>
      rw [value_cons, Nat.testBit_zero]
      cases b <;> simp
    | succ t =>
      rw [value_cons, Nat.testBit_succ]
      have : (b.toNat + 2 * value tl) / 2 = value tl := by
        cases b
        · simp
        · simp; omega
      rw [this, ih t]
      simp

theorem eq_of_testBit_below (k a b : Nat) (ha : a < 2 ^ k) (hb : b < 2 ^ k)
    (h : ∀ t, t < k → a.testBit t = b.testBit t) : a = b := by
  apply Nat.eq_of_testBit_eq
  intro t
  by_cases ht : t < k
  · exact h t ht
  · have hle : 2 ^ k ≤ 2 ^ t := Nat.pow_le_pow_right (by decide) (by omega)
    rw [Nat.testBit_lt_two_pow (by omega), Nat.testBit_lt_two_pow (by omega)]

/-- The conjunction rendered from a vector is true under the bits of `m`
exactly when `m` is the vector's value. -/
theorem evalConj_bitsOf (bv : List Bool) (m : Nat) (hm : m < 2 ^ bv.length) :
    evalConj (bitsOf m) (litsOf bv bv.length) = true ↔ m = value bv := by
  rw [evalConj_litsOf]
  constructor
  · intro h
    apply eq_of_testBit_below bv.length m (value bv) hm (value_lt bv)
    intro t ht
    rw [testBit_value]
    exact h t ht
  · intro h t _
    rw [h, bitsOf, testBit_value]

/-! ## Rendered text -/

theorem literal_text_eq (bv : List Bool) (j : Nat) :
    Literal.text { negated := (bv.getD j false == false), input := j }
      = literalName bv j ++ (if j > 0 then " and " else ";\n") := by
  have hnot : "not " ++ "input(" = "not input(" := by decide
  cases hb : bv.getD j false
  · simp only [Literal.text, literalName, hb, lower_range, beq_self_eq_true, if_true,
      Bool.false_eq_true, if_false]
    rw [← hnot]
    simp only [String.append_assoc]
  · simp only [Literal.text, literalName, hb, lower_range, if_true]
    simp [String.append_assoc]

theorem termText_litsOf (bv : List Bool) :
    ∀ j, termText (litsOf bv (j + 1)) = andJoin (literalNames bv (j + 1)) ++ ";\n" := by
  intro j
  induction j with
  | zero =>
    simp only [litsOf, termText, literalNames, andJoin, literal_text_eq]
    simp
  | succ j ih =>
    have h1 : termText (litsOf bv (j + 1 + 1))
        = Literal.text { negated := (bv.getD (j + 1) false == false), input := j + 1 }
            ++ termText (litsOf bv (j + 1)) := rfl
    have h2 : andJoin (literalNames bv (j + 1 + 1))
        = literalName bv (j + 1) ++ " and " ++ andJoin (literalNames bv (j + 1)) := rfl
    rw [h1, h2, ih, literal_text_eq]
    simp [String.append_assoc]

theorem literalNames_length (bv : List Bool) : ∀ j, (literalNames bv j).length = j := by
  intro j
  induction j with
  | zero => rfl
  | succ j ih => simp [literalNames, ih]

/-! ## The generator loop -/

theorem floorLog_two_pow : ∀ (k fuel : Nat), k < fuel → floorLog 2 fuel (2 ^ k) = k := by
  intro k
  induction k with
  | zero =>
    intro fuel h
    cases fuel with
    | zero => omega
    | succ f => simp [floorLog]
  | succ k ih =>
    intro fuel h
    cases fuel with
    | zero => omega
    | succ f =>
      have hpos : 0 < 2 ^ k := Nat.pow_pos (by decide)
      have h1 : ¬ (2 ^ (k + 1) < 2) := by rw [Nat.pow_succ]; omega
      have h2 : 2 ^ (k + 1) / 2 = 2 ^ k := by rw [Nat.pow_succ]; omega
      simp only [floorLog, h1, if_false, h2]
      rw [ih f (by omega)]

theorem log2n_two_pow (k : Nat) : log2n (2 ^ k) = k :=
  floorLog_two_pow k (2 ^ k) (Nat.lt_two_pow k)

/-- The generator loop on any start vector of the right length: it returns,
the indices count down from `m - 1` to `0`, and the row for index `i` holds
the start vector decremented `m - 1 - i` times together with its literals. -/
theorem genLoop_spec (ub : Int) (n : Nat) :
    ∀ (m : Nat) (bv : List Bool), bv.length = log2n n →
      ∃ rows, genLoop ub n m bv = some rows
        ∧ rows.map Row.index = (List.range m).reverse
        ∧ ∀ r ∈ rows, r.index < m
            ∧ r.bv.length = log2n n
            ∧ decrementN (m - 1 - r.index) bv = some r.bv
            ∧ value r.bv = value bv - (m - 1 - r.index)
            ∧ r.lits = litsOf r.bv (log2n n)
            ∧ r.pad = padding ub n r.index := by
  intro m
  induction m with
  | zero => intro bv _; exact ⟨[], rfl, rfl, by simp⟩
  | succ m ih =>
    intro bv hlen
    have hlit := literalLoop_eq bv (log2n n) (by omega)
    obtain ⟨bv1, hdec, hl1, hv1⟩ := decrement_value bv
    obtain ⟨rest, hrest, hidx, hrows⟩ := ih bv1 (by omega)
    refine ⟨{ index := m, bv := bv, pad := padding ub n m, lits := litsOf bv (log2n n) } :: rest,
      by simp [genLoop, hlit, hdec, hrest], by simp [hidx, List.range_succ], ?_⟩
    intro r hr
    rcases List.mem_cons.mp hr with h | h
    · subst h
      simp [hlen, decrementN]
    · obtain ⟨h1, h2, h3, h4, h5, h6⟩ := hrows r h
      refine ⟨by omega, h2, ?_, by omega, h5, h6⟩
      have : m + 1 - 1 - r.index = (m - 1 - r.index) + 1 := by omega
      rw [this]
      simp [decrementN, hdec, h3]

theorem row_at (rows : List Row) (m : Nat)
    (h : rows.map Row.index = (List.range m).reverse) (i : Nat) (hi : i < m) :
    ∃ r, rows[m - 1 - i]? = some r ∧ r.index = i ∧ r ∈ rows := by
  have hlen : rows.length = m := by
    have := congrArg List.length h
    simpa using this
  have hp : m - 1 - i < rows.length := by omega
  refine ⟨rows[m - 1 - i], List.getElem?_eq_getElem hp, ?_, List.getElem_mem hp⟩
  have h1 : (rows.map Row.index)[m - 1 - i]? = ((List.range m).reverse)[m - 1 - i]? := by
    rw [h]
  rw [List.getElem?_map, List.getElem?_eq_getElem hp,
    List.getElem?_reverse (by simpa using (by omega : m - 1 - i < m)),
    List.getElem?_range (by simp; omega)] at h1
  simp only [Option.map_some', List.length_range, Option.some.injEq] at h1
  omega

/-- The rows of `genDecoder` for `n = 2^k`: it returns, and the row of index
`i` holds the vector of length `k` and value `i` with its literals. -/
theorem genDecoder_spec (ub : Int) (k : Nat) :
    ∃ rows, genDecoder ub (2 ^ k) = some rows
      ∧ rows.map Row.index = (List.range (2 ^ k)).reverse
      ∧ ∀ r ∈ rows, r.index < 2 ^ k
          ∧ r.bv.length = k
          ∧ decrementN (2 ^ k - 1 - r.index) (List.replicate k true) = some r.bv
          ∧ value r.bv = r.index
          ∧ r.lits = litsOf r.bv k := by
  have hlog := log2n_two_pow k
  obtain ⟨rows, hrows, hidx, hall⟩ :=
    genLoop_spec ub (2 ^ k) (2 ^ k) (List.replicate k true) (by simp [hlog])
  refine ⟨rows, by simpa [genDecoder, hlog] using hrows, hidx, ?_⟩
  intro r hr
  obtain ⟨h1, h2, h3, h4, h5, _⟩ := hall r hr
  have hv := value_replicate_true k
  rw [hlog] at h2 h5
  exact ⟨h1, h2, h3, by omega, h5⟩

/-! ## The claims -/

/-- C1 (one-hot decoding).  For `n = 2^k` (every `k`, so `k ≥ 1` in
particular) the generator returns `n` rows, and for every `i < n` the row at
position `n - 1 - i` is the line of `output(i)`: the conjunction of its
literals, with `input(j)` set to bit `j` of `i'`, is true exactly when
`i' = i`, for every `i' < n`. -/
theorem genDecoder_one_hot (ub : Int) (k : Nat) :
    ∃ rows, genDecoder ub (2 ^ k) = some rows
      ∧ rows.length = 2 ^ k
      ∧ ∀ i, i < 2 ^ k → ∃ r, rows[2 ^ k - 1 - i]? = some r ∧ r.index = i
          ∧ ∀ i', i' < 2 ^ k → (evalConj (bitsOf i') r.lits = true ↔ i' = i) := by
  obtain ⟨rows, hrows, hidx, hall⟩ := genDecoder_spec ub k
  have hlen : rows.length = 2 ^ k := by
    have := congrArg List.length hidx
    simpa using this
  refine ⟨rows, hrows, hlen, ?_⟩
  intro i hi
  obtain ⟨r, hr, hri, hmem⟩ := row_at rows (2 ^ k) hidx i hi
  obtain ⟨_, hl, _, hv, hlits⟩ := hall r hmem
  refine ⟨r, hr, hri, ?_⟩
  intro i' hi'
  have h := evalConj_bitsOf r.bv i' (by rw [hl]; exact hi')
  rw [hl, ← hlits, hv, hri] at h
  exact h

/-- C2 (one line per output, descending).  For `n = 2^k` the generator loop
returns exactly `n` rows, their indices are `n - 1, n - 2, ..., 1, 0` in this
order (so each index below `n` occurs, and none twice), and each row is
written as the line of its index. -/
theorem genDecoder_lines_descending (ub : Int) (k : Nat) :
    ∃ rows, genDecoder ub (2 ^ k) = some rows
      ∧ rows.length = 2 ^ k
      ∧ rows.map Row.index = (List.range (2 ^ k)).reverse
      ∧ (rows.map Row.index).Nodup
      ∧ (∀ i, i ∈ rows.map Row.index ↔ i < 2 ^ k)
      ∧ ∀ r ∈ rows, r.text
          = "output" ++ "(" ++ toString r.index ++ ")" ++ r.pad ++ " <= " ++ termText r.lits := by
  obtain ⟨rows, hrows, hidx, _⟩ := genDecoder_spec ub k
  have hlen : rows.length = 2 ^ k := by
    have := congrArg List.length hidx
    simpa using this
  refine ⟨rows, hrows, hlen, hidx, ?_, ?_, fun _ _ => rfl⟩
  · rw [hidx]
    exact List.nodup_reverse.mpr (List.nodup_range _)
  · intro i
    rw [hidx]
    simp

/-- C3 (enumeration invariant).  For `n = 2^k` the loop starts on the all-true
vector of length `k`, whose value is `n - 1`, and for every `i` from `n - 1`
down to `0` the iteration with index `i` starts with a vector of length `k`
whose value is `i`. -/
theorem genDecoder_value_eq_index (ub : Int) (k : Nat) :
    ∃ rows, genDecoder ub (2 ^ k) = some rows
      ∧ (∃ r0, rows[0]? = some r0 ∧ r0.index = 2 ^ k - 1 ∧ r0.bv = List.replicate k true)
      ∧ value (List.replicate k true) = 2 ^ k - 1
      ∧ ∀ i, i < 2 ^ k → ∃ r, rows[2 ^ k - 1 - i]? = some r ∧ r.index = i
          ∧ r.bv.length = k ∧ value r.bv = i := by
  obtain ⟨rows, hrows, hidx, hall⟩ := genDecoder_spec ub k
  have hpos : 0 < 2 ^ k := Nat.pow_pos (by decide)
  have hv := value_replicate_true k
  refine ⟨rows, hrows, ?_, by omega, ?_⟩
  · obtain ⟨r, hr, hri, hmem⟩ := row_at rows (2 ^ k) hidx (2 ^ k - 1) (by omega)
    obtain ⟨_, _, hd, _, _⟩ := hall r hmem
    rw [hri, Nat.sub_self] at hd
    rw [Nat.sub_self] at hr
    exact ⟨r, hr, hri, by simpa [decrementN] using hd.symm⟩
  · intro i hi
    obtain ⟨r, hr, hri, hmem⟩ := row_at rows (2 ^ k) hidx i hi
    obtain ⟨_, hl, _, hval, _⟩ := hall r hmem
    exact ⟨r, hr, hri, hl, by omega⟩

/-- C4 (term rendering).  For a vector `bv` of length `k ≥ 1` (the `log2n` of
the run) and every index `i`, the iteration for `output(i)` returns a row with
exactly `k` literals, for the positions `k - 1` down to `0`, and the text after
the arrow is `literal_{k-1} and ... and literal_0` followed by `;` and a line
end, where `literal_j` is `input(j)` when `bv[j]` is true and `not input(j)`
when it is false. -/
theorem term_rendering (ub : Int) (n i : Nat) (bv : List Bool)
    (hk : 1 ≤ bv.length) (hlen : bv.length = log2n n) :
    ∃ r rest, genLoop ub n (i + 1) bv = some (r :: rest)
      ∧ r.index = i
      ∧ r.lits.length = bv.length
      ∧ r.lits.map Literal.input = (List.range bv.length).reverse
      ∧ (literalNames bv bv.length).length = bv.length
      ∧ termText r.lits = andJoin (literalNames bv bv.length) ++ ";" ++ "\n"
      ∧ r.text = "output" ++ "(" ++ toString i ++ ")" ++ padding ub n i ++ " <= "
          ++ (andJoin (literalNames bv bv.length) ++ ";" ++ "\n") := by
  have hlit := literalLoop_eq bv (log2n n) (by omega)
  obtain ⟨bv1, hdec, hl1, _⟩ := decrement_value bv
  obtain ⟨rest, hrest, _, _⟩ := genLoop_spec ub n i bv1 (by omega)
  obtain ⟨j, hj⟩ : ∃ j, bv.length = j + 1 := ⟨bv.length - 1, by omega⟩
  have htext : termText (litsOf bv bv.length)
      = andJoin (literalNames bv bv.length) ++ ";" ++ "\n" := by
    rw [hj, termText_litsOf, String.append_assoc]
    rfl
  refine ⟨{ index := i, bv := bv, pad := padding ub n i, lits := litsOf bv (log2n n) }, rest,
    by simp [genLoop, hlit, hdec, hrest], rfl, ?_, ?_, literalNames_length bv _, ?_, ?_⟩
  · rw [← hlen]; exact litsOf_length bv _
  · rw [← hlen]; exact litsOf_input bv _
  · rw [← hlen]; exact htext
  · simp only [Row.text]
    rw [← hlen, htext]

theorem term_rendering_witness :
    (1 ≤ [true, false].length ∧ [true, false].length = log2n 4)
      ∧ ∃ r rest, genLoop 0 4 (1 + 1) [true, false] = some (r :: rest)
          ∧ r.index = 1
          ∧ r.lits.length = [true, false].length
          ∧ r.lits.map Literal.input = (List.range [true, false].length).reverse
          ∧ (literalNames [true, false] [true, false].length).length = [true, false].length
          ∧ termText r.lits
              = andJoin (literalNames [true, false] [true, false].length) ++ ";" ++ "\n"
          ∧ r.text = "output" ++ "(" ++ toString 1 ++ ")" ++ padding 0 4 1 ++ " <= "
              ++ (andJoin (literalNames [true, false] [true, false].length) ++ ";" ++ "\n") :=
  ⟨⟨by decide, by decide⟩, term_rendering 0 4 1 [true, false] (by decide) (by decide)⟩

/-- C5 (decrement subtracts one).  For a vector `v` with at least one true
entry, with `p` its lowest true position, `decrement` returns a vector of the
same length in which position `p` is false, every position below `p` is true
and every position above `p` is as in `v`; its value is the value of `v`
minus one. -/
theorem decrement_subtracts_one (v : List Bool) (h : true ∈ v) :
    ∃ p v', p < v.length ∧ v[p]? = some true ∧ (∀ j, j < p → v[j]? = some false)
      ∧ decrement v = some v' ∧ v'.length = v.length
      ∧ v'[p]? = some false
      ∧ (∀ j, j < p → v'[j]? = some true)
      ∧ (∀ j, p < j → v'[j]? = v[j]?)
      ∧ value v' + 1 = value v ∧ value v' = value v - 1 := by
  obtain ⟨p, rest, rfl⟩ := split_lowest_true v h
  have h1 := value_replicate_true_append p (false :: rest)
  have h2 := value_replicate_false_append p (true :: rest)
  simp only [value_cons, Bool.toNat_false, Bool.toNat_true] at h1 h2
  have h3 : value (List.replicate p true ++ false :: rest) + 1
      = value (List.replicate p false ++ true :: rest) := by
    rw [h2, h1]; ring
  refine ⟨p, List.replicate p true ++ false :: rest, by simp,
    getElem?_replicate_append_at false true p rest,
    fun j hj => getElem?_replicate_append_lt false p j _ hj,
    decrement_borrow p rest, by simp,
    getElem?_replicate_append_at true false p rest,
    fun j hj => getElem?_replicate_append_lt true p j _ hj,
    fun j hj => getElem?_replicate_append_gt true false false true p j rest hj,
    h3, by omega⟩

theorem decrement_subtracts_one_witness :
    true ∈ [false, false, true, false]
      ∧ ∃ p v', p < [false, false, true, false].length
        ∧ [false, false, true, false][p]? = some true
        ∧ (∀ j, j < p → [false, false, true, false][j]? = some false)
        ∧ decrement [false, false, true, false] = some v'
        ∧ v'.length = [false, false, true, false].length
        ∧ v'[p]? = some false
        ∧ (∀ j, j < p → v'[j]? = some true)
        ∧ (∀ j, p < j → v'[j]? = [false, false, true, false][j]?)
        ∧ value v' + 1 = value [false, false, true, false]
        ∧ value v' = value [false, false, true, false] - 1 :=
  ⟨by decide, decrement_subtracts_one [false, false, true, false] (by decide)⟩

/-- C6 (decrement saturates at zero).  For a vector of any length whose
entries are all false, `decrement` returns the vector unchanged. -/
theorem decrement_saturates (v : List Bool) (h : ∀ b ∈ v, b = false) :
    decrement v = some v :=
  decrement_allFalse v h

theorem decrement_saturates_witness :
    (∀ b ∈ [false, false, false], b = false)
      ∧ decrement [false, false, false] = some [false, false, false] :=
  ⟨by decide, decrement_saturates [false, false, false] (by decide)⟩

/-- C7 (counter round trip).  For every `k` and `n = 2^k`, `n - 1` decrements
of the all-true vector of length `k` give the all-false vector of length `k`;
one more decrement leaves it all-false, so `n` decrements give it too, and
`isEmpty` is true on it. -/
theorem counter_round_trip (k : Nat) :
    decrementN (2 ^ k - 1) (List.replicate k true) = some (List.replicate k false)
      ∧ decrement (List.replicate k false) = some (List.replicate k false)
      ∧ decrementN (2 ^ k) (List.replicate k true) = some (List.replicate k false)
      ∧ isEmpty (List.replicate k false) = some true := by
  have hv := value_replicate_true k
  have key : ∀ m, 2 ^ k - 1 ≤ m →
      decrementN m (List.replicate k true) = some (List.replicate k false) := by
    intro m hm
    obtain ⟨v1, h1, hl, hval⟩ := decrementN_value m (List.replicate k true)
    have h0 : value v1 = 0 := by omega
    have := eq_replicate_of_value_zero v1 h0
    rw [hl, List.length_replicate] at this
    rw [h1, this]
  refine ⟨key _ (Nat.le_refl _), ?_, key _ (Nat.sub_le _ _), ?_⟩
  · exact decrement_allFalse _ (fun b hb => (List.mem_replicate.mp hb).2)
  · rw [isEmpty_eq]; simp

/-- C8, counterexample.  The vector `[false]` of length 1 is reached from the
all-true vector by one decrement and its value 0 is below `n - 1 = 1`, yet
`increment` after `decrement` gives `[true]`. -/
theorem increment_decrement_counterexample :
    [false].length = 1
      ∧ decrementN 1 (List.replicate 1 true) = some [false]
      ∧ value [false] < 2 ^ 1 - 1
      ∧ (decrement [false]).bind increment = some [true]
      ∧ (decrement [false]).bind increment ≠ some [false] := by
  decide

/-- C8, amended.  For `n = 2^k` and a vector `v` of length `k` reached from the
all-true vector by repeated decrement, whose value is less than `n - 1` and
greater than 0, `increment` after `decrement` gives `v` back. -/
theorem increment_decrement_inverse (k : Nat) (v : List Bool) (hlen : v.length = k)
    (hreach : ∃ m, decrementN m (List.replicate k true) = some v)
    (hlt : value v < 2 ^ k - 1) (hpos : 0 < value v) :
    (decrement v).bind increment = some v := by
  obtain ⟨p, rest, rfl⟩ := split_lowest_true v (mem_true_of_value_pos v hpos)
  rw [decrement_borrow, Option.some_bind, increment_carry]

theorem increment_decrement_inverse_witness :
    ([false, true, false].length = 3
      ∧ (∃ m, decrementN m (List.replicate 3 true) = some [false, true, false])
      ∧ value [false, true, false] < 2 ^ 3 - 1 ∧ 0 < value [false, true, false])
      ∧ (decrement [false, true, false]).bind increment = some [false, true, false] :=
  ⟨⟨by decide, ⟨5, by decide⟩, by decide, by decide⟩,
    increment_decrement_inverse 3 [false, true, false] (by decide) ⟨5, by decide⟩
      (by decide) (by decide)⟩

/-- C9 (increment adds one).  For a vector `v` with at least one false entry,
with `p` its lowest false position, `increment` returns a vector of the same
length in which position `p` is true, every position below `p` is false and
every position above `p` is as in `v`; its value is the value of `v` plus
one. -/
theorem increment_adds_one (v : List Bool) (h : false ∈ v) :
    ∃ p v', p < v.length ∧ v[p]? = some false ∧ (∀ j, j < p → v[j]? = some true)
      ∧ increment v = some v' ∧ v'.length = v.length
      ∧ v'[p]? = some true
      ∧ (∀ j, j < p → v'[j]? = some false)
      ∧ (∀ j, p < j → v'[j]? = v[j]?)
      ∧ value v' = value v + 1 := by
  obtain ⟨p, rest, rfl⟩ := split_lowest_false v h
  have h1 := value_replicate_true_append p (false :: rest)
  have h2 := value_replicate_false_append p (true :: rest)
  simp only [value_cons, Bool.toNat_false, Bool.toNat_true] at h1 h2
  have h3 : value (List.replicate p false ++ true :: rest)
      = value (List.replicate p true ++ false :: rest) + 1 := by
    rw [h2, h1]; ring
  exact ⟨p, List.replicate p false ++ true :: rest, by simp,
    getElem?_replicate_append_at true false p rest,
    fun j hj => getElem?_replicate_append_lt true p j _ hj,
    increment_carry p rest, by simp,
    getElem?_replicate_append_at false true p rest,
    fun j hj => getElem?_replicate_append_lt false p j _ hj,
    fun j hj => getElem?_replicate_append_gt false true true false p j rest hj,
    h3⟩

theorem increment_adds_one_witness :
    false ∈ [true, true, false, true]
      ∧ ∃ p v', p < [true, true, false, true].length
        ∧ [true, true, false, true][p]? = some false
        ∧ (∀ j, j < p → [true, true, false, true][j]? = some true)
        ∧ increment [true, true, false, true] = some v'
        ∧ v'.length = [true, true, false, true].length
        ∧ v'[p]? = some true
        ∧ (∀ j, j < p → v'[j]? = some false)
        ∧ (∀ j, p < j → v'[j]? = [true, true, false, true][j]?)
        ∧ value v' = value [true, true, false, true] + 1 :=
  ⟨by decide, increment_adds_one [true, true, false, true] (by decide)⟩

/-- C10 (isEmpty).  On a vector of any length `isEmpty` returns, and it
returns true exactly when every entry is false; on the vector of length zero
it returns true. -/
theorem isEmpty_iff_all_false (bv : List Bool) :
    (∃ r, isEmpty bv = some r)
      ∧ (isEmpty bv = some true ↔ ∀ b ∈ bv, b = false)
      ∧ isEmpty [] = some true := by
  refine ⟨⟨_, isEmpty_eq bv⟩, ?_, by decide⟩
  rw [isEmpty_eq]
  simp

/-! ## Padding and the undefined conversion -/

theorem padding_nonpos (ub ub1 : Int) (h : ub ≤ 0) (h1 : ub1 ≤ 0) (n i : Nat) :
    padding ub n i = padding ub1 n i := by
  unfold padding digit_diff
  by_cases hc : n - 1 = 0 ∨ i = 0
  · have hn : ¬ (ub > 0) := by omega
    have hn1 : ¬ (ub1 > 0) := by omega
    simp only [hc, if_true, hn, hn1, if_false]
  · simp only [hc, if_false]

theorem genLoop_nonpos (ub ub1 : Int) (h : ub ≤ 0) (h1 : ub1 ≤ 0) (n : Nat) :
    ∀ (m : Nat) (bv : List Bool), genLoop ub n m bv = genLoop ub1 n m bv := by
  intro m
  induction m with
  | zero => intro bv; rfl
  | succ m ih =>
    intro bv
    simp only [genLoop, padding_nonpos ub ub1 h h1 n m]
    cases literalLoop bv (log2n n) with
    | none => rfl
    | some lits =>
      cases decrement bv with
      | none => rfl
      | some bv1 => simp only [ih bv1]

theorem genDecoder_nonpos (ub ub1 : Int) (h : ub ≤ 0) (h1 : ub1 ≤ 0) (n : Nat) :
    genDecoder ub n = genDecoder ub1 n :=
  genLoop_nonpos ub ub1 h h1 n n _

theorem padding_spaces (ub : Int) (n i : Nat) : ∀ c ∈ (padding ub n i).data, c = ' ' := by
  have hp : ∀ c ∈ (if digit_diff ub n i > 0
      then String.mk (List.replicate (digit_diff ub n i).toNat ' ') else "").data, c = ' ' := by
    intro c hc
    split at hc
    · exact (List.mem_replicate.mp hc).2
    · simp at hc
  have heq : padding ub n i = if i = 0
      then (if digit_diff ub n i > 0
        then String.mk (List.replicate (digit_diff ub n i).toNat ' ') else "") ++ " "
      else (if digit_diff ub n i > 0
        then String.mk (List.replicate (digit_diff ub n i).toNat ' ') else "") := rfl
  intro c hc
  rw [heq] at hc
  by_cases hi : i = 0
  · rw [if_pos hi, String.data_append] at hc
    rcases List.mem_append.mp hc with h | h
    · exact hp c h
    · simpa using h
  · rw [if_neg hi] at hc
    exact hp c hc

/-- The rows that `genDecoder` returns, for every `n`: the row of index `i`
sits at position `n - 1 - i`. -/
theorem genDecoder_rows (ub : Int) (n : Nat) :
    ∃ rows, genDecoder ub n = some rows
      ∧ rows.length = n
      ∧ rows.map Row.index = (List.range n).reverse
      ∧ ∀ i, i < n → ∃ r, rows[n - 1 - i]? = some r ∧ r ∈ rows ∧ r.index = i
          ∧ r.pad = padding ub n i
          ∧ r.bv.length = log2n n
          ∧ value r.bv = 2 ^ log2n n - 1 - (n - 1 - i)
          ∧ r.lits = litsOf r.bv (log2n n) := by
  obtain ⟨rows, hrows, hidx, hall⟩ :=
    genLoop_spec ub n n (List.replicate (log2n n) true) (by simp)
  have hlen : rows.length = n := by
    have := congrArg List.length hidx
    simpa using this
  refine ⟨rows, hrows, hlen, hidx, ?_⟩
  intro i hi
  obtain ⟨r, hr, hri, hmem⟩ := row_at rows n hidx i hi
  obtain ⟨_, h2, _, h4, h5, h6⟩ := hall r hmem
  have hv := value_replicate_true (log2n n)
  refine ⟨r, hr, hmem, hri, by rw [h6, hri], h2, ?_, h5⟩
  rw [h4, hri]
  omega

theorem padding_zero_length (ub : Int) (n : Nat) : 1 ≤ (padding ub n 0).length := by
  have heq : padding ub n 0
      = (if digit_diff ub n 0 > 0
          then String.mk (List.replicate (digit_diff ub n 0).toNat ' ') else "") ++ " " := rfl
  rw [heq, String.length_append]
  have : " ".length = 1 := by decide
  omega

/-- C11 (scenario `n = 4`, `k = 2`).  When the undefined conversion of the
infinite `digit_diff` at index 0 gives a value `ub ≤ 0` (as on x86-64, where it
gives the least `int`), the loop visits the vectors `[1,1]`, `[1,0]`, `[0,1]`,
`[0,0]` (most significant bit first) for the indices 3, 2, 1, 0 and writes
exactly the four lines of the scenario, each ended by a line end, with two
spaces before the arrow on the line of index 0 only. -/
theorem scenario_n4 (ub : Int) (h : ub ≤ 0) :
    (genDecoder ub 4).map (fun rows => rows.map (fun r => (r.index, r.bv.reverse, r.text)))
      = some [(3, [true, true], "output(3) <= input(1) and input(0);\n"),
              (2, [true, false], "output(2) <= input(1) and not input(0);\n"),
              (1, [false, true], "output(1) <= not input(1) and input(0);\n"),
              (0, [false, false], "output(0)  <= not input(1) and not input(0);\n")] := by
  rw [genDecoder_nonpos ub 0 h (Int.le_refl 0)]
  decide

theorem scenario_n4_witness :
    (-2147483648 : Int) ≤ 0
      ∧ (genDecoder (-2147483648) 4).map
          (fun rows => rows.map (fun r => (r.index, r.bv.reverse, r.text)))
        = some [(3, [true, true], "output(3) <= input(1) and input(0);\n"),
                (2, [true, false], "output(2) <= input(1) and not input(0);\n"),
                (1, [false, true], "output(1) <= not input(1) and input(0);\n"),
                (0, [false, false], "output(0)  <= not input(1) and not input(0);\n")] :=
  ⟨by decide, scenario_n4 (-2147483648) (by decide)⟩

/-- C12 (scenario `n = 1`, `k = 0`), what the code does.  The generator returns
one row, for index 0, with no literal; the renderer loop body never runs, so
the text of the line is `output(0)`, the padding and the arrow, and holds
neither a `;` nor a line end, whatever the undefined conversion gives.  With
the least `int` for it the text is `output(0)  <= `. -/
theorem scenario_n1_unterminated (ub : Int) :
    genDecoder ub 1 = some [{ index := 0, bv := [], pad := padding ub 1 0, lits := [] }]
      ∧ Row.text { index := 0, bv := [], pad := padding ub 1 0, lits := [] }
          = "output(0)" ++ padding ub 1 0 ++ " <= "
      ∧ ';' ∉ (Row.text { index := 0, bv := [], pad := padding ub 1 0, lits := [] }).data
      ∧ Char.ofNat 10 ∉ (Row.text { index := 0, bv := [], pad := padding ub 1 0, lits := [] }).data
      ∧ (genDecoder (-2147483648) 1).map (fun rows => rows.map Row.text)
          = some ["output(0)  <= "] := by
  have htext : Row.text { index := 0, bv := [], pad := padding ub 1 0, lits := [] }
      = "output(0)" ++ padding ub 1 0 ++ " <= " := by
    have h0 : "output" ++ "(" ++ toString 0 ++ ")" = "output(0)" := by decide
    simp only [Row.text, termText, h0, String.append_empty]
  have hmem : ∀ c ∈ ("output(0)" ++ padding ub 1 0 ++ " <= ").data,
      c ≠ ';' ∧ c ≠ Char.ofNat 10 := by
    intro c hc
    simp only [String.data_append, List.mem_append] at hc
    rcases hc with (h | h) | h
    · have : ∀ c ∈ "output(0)".data, c ≠ ';' ∧ c ≠ Char.ofNat 10 := by decide
      exact this c h
    · rw [padding_spaces ub 1 0 c h]
      decide
    · have : ∀ c ∈ " <= ".data, c ≠ ';' ∧ c ≠ Char.ofNat 10 := by decide
      exact this c h
  refine ⟨rfl, htext, ?_, ?_, by decide⟩
  · rw [htext]
    intro hc
    exact (hmem _ hc).1 rfl
  · rw [htext]
    intro hc
    exact (hmem _ hc).2 rfl

/-- C13, counterexample.  6 is not a power of two, and the generator reports
nothing: it runs the loop and returns six lines, for the indices 5 down to
0. -/
theorem no_validation_counterexample :
    (¬ ∃ k, 6 = 2 ^ k)
      ∧ genDecoder (-2147483648) 6 ≠ none
      ∧ (genDecoder (-2147483648) 6).map (fun rows => rows.map Row.text)
        = some ["output(5) <= input(1) and input(0);\n",
                "output(4) <= input(1) and not input(0);\n",
                "output(3) <= not input(1) and input(0);\n",
                "output(2) <= not input(1) and not input(0);\n",
                "output(1) <= not input(1) and not input(0);\n",
                "output(0)  <= not input(1) and not input(0);\n"] := by
  refine ⟨?_, by decide, by decide⟩
  rintro ⟨k, hk⟩
  have hlt : k < 3 := by
    by_contra hc
    have := Nat.pow_le_pow_right (by decide : 0 < 2) (Nat.le_of_not_lt hc)
    omega
  interval_cases k <;> omega

/-- C13, amended.  The generator does not check `n`: for every `n ≥ 1`, a
power of two or not, it reports no error, runs the loop to its end and returns
`n` lines, for the indices `n - 1` down to `0`. -/
theorem genDecoder_no_validation (ub : Int) (n : Nat) (hn : 1 ≤ n) :
    ∃ rows, genDecoder ub n = some rows ∧ 0 < rows.length ∧ rows.length = n
      ∧ rows.map Row.index = (List.range n).reverse := by
  obtain ⟨rows, hrows, hlen, hidx, _⟩ := genDecoder_rows ub n
  exact ⟨rows, hrows, by omega, hlen, hidx⟩

theorem genDecoder_no_validation_witness :
    1 ≤ 6 ∧ ∃ rows, genDecoder (-2147483648) 6 = some rows ∧ 0 < rows.length
      ∧ rows.length = 6 ∧ rows.map Row.index = (List.range 6).reverse :=
  ⟨by decide, genDecoder_no_validation (-2147483648) 6 (by decide)⟩

/-! ## More on the counter -/

theorem eq_replicate_true_of_not_mem (v : List Bool) (h : false ∉ v) :
    v = List.replicate v.length true := by
  rw [List.eq_replicate_iff]
  refine ⟨rfl, ?_⟩
  intro b hb
  cases b with
  | true => rfl
  | false => exact absurd hb h

/-- What `increment` does to the value, on every vector: it returns, keeps
the length and adds one modulo `2 ^ length`. -/
theorem increment_value (v : List Bool) :
    ∃ v1, increment v = some v1 ∧ v1.length = v.length
      ∧ value v1 = (value v + 1) % 2 ^ v.length := by
  by_cases h : false ∈ v
  · obtain ⟨p, rest, rfl⟩ := split_lowest_false v h
    have hlen : (List.replicate p false ++ true :: rest).length
        = (List.replicate p true ++ false :: rest).length := by simp
    refine ⟨_, increment_carry p rest, hlen, ?_⟩
    have h1 := value_replicate_true_append p (false :: rest)
    have h2 := value_replicate_false_append p (true :: rest)
    simp only [value_cons, Bool.toNat_false, Bool.toNat_true] at h1 h2
    have h3 : value (List.replicate p false ++ true :: rest)
        = value (List.replicate p true ++ false :: rest) + 1 := by
      rw [h2, h1]; ring
    have h4 := value_lt (List.replicate p false ++ true :: rest)
    rw [hlen, h3] at h4
    rw [Nat.mod_eq_of_lt h4, h3]
  · obtain ⟨k, rfl⟩ : ∃ k, v = List.replicate k true :=
      ⟨_, eq_replicate_true_of_not_mem v h⟩
    have h1 := value_replicate_true k
    have h2 := value_replicate_false k
    refine ⟨List.replicate k false, increment_wrap k, by simp, ?_⟩
    rw [h2, h1, List.length_replicate, Nat.mod_self]

theorem applyOps_length (ops : List Op) :
    ∀ v : List Bool, ∃ v1, applyOps ops v = some v1 ∧ v1.length = v.length := by
  induction ops with
  | nil => intro v; exact ⟨v, rfl, rfl⟩
  | cons op ops ih =>
    intro v
    cases op with
    | inc =>
      obtain ⟨v1, h1, hl1, _⟩ := increment_value v
      obtain ⟨v2, h2, hl2⟩ := ih v1
      exact ⟨v2, by simp [applyOps, h1, h2], by omega⟩
    | dec =>
      obtain ⟨v1, h1, hl1, _⟩ := decrement_value v
      obtain ⟨v2, h2, hl2⟩ := ih v1
      exact ⟨v2, by simp [applyOps, h1, h2], by omega⟩

/-- C14 (length invariant).  For every vector `v`, of length `k`, `increment`
and `decrement` return vectors of length `k`, whose values are therefore below
`2^k`, and so does every sequence of increments and decrements. -/
theorem counter_length_invariant (v : List Bool) :
    (∃ v1, increment v = some v1 ∧ v1.length = v.length ∧ value v1 < 2 ^ v.length)
      ∧ (∃ v2, decrement v = some v2 ∧ v2.length = v.length ∧ value v2 < 2 ^ v.length)
      ∧ ∀ ops : List Op,
          ∃ v3, applyOps ops v = some v3 ∧ v3.length = v.length ∧ value v3 < 2 ^ v.length := by
  refine ⟨?_, ?_, ?_⟩
  · obtain ⟨v1, h1, hl, _⟩ := increment_value v
    exact ⟨v1, h1, hl, by rw [← hl]; exact value_lt v1⟩
  · obtain ⟨v2, h2, hl, _⟩ := decrement_value v
    exact ⟨v2, h2, hl, by rw [← hl]; exact value_lt v2⟩
  · intro ops
    obtain ⟨v3, h3, hl⟩ := applyOps_length ops v
    exact ⟨v3, h3, hl, by rw [← hl]; exact value_lt v3⟩

/-- C15, what the code does.  The arrows are not at one column on all lines.
For `n = 4`, whatever the undefined conversion gives, `output(3)` with its
padding is 9 characters wide and `output(0)` with its padding at least 10.  For
`n = 512`, the value in the source, with the least `int` for the conversion,
index 1 gets two padding spaces and index 0 only one. -/
theorem arrow_misaligned_at_index_zero :
    (∀ ub : Int, ∃ rows r3 r0, genDecoder ub 4 = some rows ∧ r3 ∈ rows ∧ r0 ∈ rows
        ∧ r3.index = 3 ∧ r0.index = 0 ∧ r3.lhs.length = 9 ∧ 10 ≤ r0.lhs.length)
      ∧ (∃ rows r1 r0, genDecoder (-2147483648) 512 = some rows ∧ r1 ∈ rows ∧ r0 ∈ rows
        ∧ r1.index = 1 ∧ r0.index = 0
        ∧ r1.lhs = "output(1)  " ∧ r0.lhs = "output(0) "
        ∧ r1.lhs.length ≠ r0.lhs.length) := by
  constructor
  · intro ub
    obtain ⟨rows, hrows, _, _, hall⟩ := genDecoder_rows ub 4
    obtain ⟨r3, _, hm3, hi3, hp3, _⟩ := hall 3 (by decide)
    obtain ⟨r0, _, hm0, hi0, hp0, _⟩ := hall 0 (by decide)
    refine ⟨rows, r3, r0, hrows, hm3, hm0, hi3, hi0, ?_, ?_⟩
    · have hpad : padding ub 4 3 = "" := rfl
      simp only [Row.lhs, hi3, hp3, hpad]
      decide
    · have h0 := padding_zero_length ub 4
      have h1 : ("output" ++ "(" ++ toString 0 ++ ")").length = 9 := by decide
      simp only [Row.lhs, hi0, hp0, String.length_append _ (padding ub 4 0), h1]
      omega
  · obtain ⟨rows, hrows, _, _, hall⟩ := genDecoder_rows (-2147483648) 512
    obtain ⟨r1, _, hm1, hi1, hp1, _⟩ := hall 1 (by decide)
    obtain ⟨r0, _, hm0, hi0, hp0, _⟩ := hall 0 (by decide)
    have h1 : r1.lhs = "output(1)  " := by
      simp only [Row.lhs, hi1, hp1]
      decide
    have h0 : r0.lhs = "output(0) " := by
      simp only [Row.lhs, hi0, hp0]
      decide
    refine ⟨rows, r1, r0, hrows, hm1, hm0, hi1, hi0, h1, h0, ?_⟩
    rw [h1, h0]
    decide

/-- C16 (padding for `n = 16`).  When the undefined conversion at index 0
gives a value `ub ≤ 0` (as on x86-64), the indices 15 down to 10 get no
padding, every index 9 down to 0, index 0 included, gets exactly one space,
and on all 16 lines `output(i)` with its padding is 10 characters wide, so
that the arrow starts at the same column; the text of a line is this part,
the arrow and the term. -/
theorem padding_n16 (ub : Int) (h : ub ≤ 0) :
    (genDecoder ub 16).map (fun rows => rows.map (fun r => (r.index, r.pad, r.lhs.length)))
      = some [(15, "", 10),
              (14, "", 10),
              (13, "", 10),
              (12, "", 10),
              (11, "", 10),
              (10, "", 10),
              (9, " ", 10),
              (8, " ", 10),
              (7, " ", 10),
              (6, " ", 10),
              (5, " ", 10),
              (4, " ", 10),
              (3, " ", 10),
              (2, " ", 10),
              (1, " ", 10),
              (0, " ", 10)]
      ∧ ∀ r : Row, r.text = r.lhs ++ " <= " ++ termText r.lits := by
  rw [genDecoder_nonpos ub 0 h (Int.le_refl 0)]
  exact ⟨by decide, fun _ => rfl⟩

theorem padding_n16_witness :
    (-2147483648 : Int) ≤ 0
      ∧ ((genDecoder (-2147483648) 16).map
          (fun rows => rows.map (fun r => (r.index, r.pad, r.lhs.length)))
        = some [(15, "", 10),
              (14, "", 10),
              (13, "", 10),
              (12, "", 10),
              (11, "", 10),
              (10, "", 10),
              (9, " ", 10),
              (8, " ", 10),
              (7, " ", 10),
              (6, " ", 10),
              (5, " ", 10),
              (4, " ", 10),
              (3, " ", 10),
              (2, " ", 10),
              (1, " ", 10),
              (0, " ", 10)]
      ∧ ∀ r : Row, r.text = r.lhs ++ " <= " ++ termText r.lits) :=
  ⟨by decide, padding_n16 (-2147483648) (by decide)⟩

/-! ## Outside the powers of two -/

theorem floorLog_eq_log (b : Nat) (hb : 1 < b) :
    ∀ (fuel x : Nat), x ≤ fuel → floorLog b fuel x = Nat.log b x := by
  intro fuel
  induction fuel with
  | zero =>
    intro x hx
    have : x = 0 := by omega
    subst this
    simp [floorLog]
  | succ f ih =>
    intro x hx
    by_cases hlt : x < b
    · simp [floorLog, hlt, Nat.log_of_lt hlt]
    · have hle : b ≤ x := Nat.le_of_not_lt hlt
      have hdiv : x / b < x := Nat.div_lt_self (by omega) hb
      rw [Nat.log_of_one_lt_of_le hb hle]
      simp only [floorLog, hlt, if_false]
      rw [ih (x / b) (by omega)]

theorem log2n_eq_log (n : Nat) : log2n n = Nat.log 2 n :=
  floorLog_eq_log 2 (by decide) n n (Nat.le_refl n)

theorem log2n_bounds (n : Nat) (hn : 1 ≤ n) :
    2 ^ log2n n ≤ n ∧ n < 2 ^ (log2n n + 1) := by
  rw [log2n_eq_log]
  exact ⟨Nat.pow_log_le_self 2 (by omega), Nat.lt_pow_succ_log_self (by decide) n⟩

theorem litsOf_eq_minterm (bv : List Bool) : ∀ j, litsOf bv j = minterm (value bv) j := by
  intro j
  induction j with
  | zero => rfl
  | succ j ih =>
    simp only [litsOf, minterm, ih, testBit_value]
    cases bv.getD j false <;> rfl

theorem testBit_eq_of_minterm_eq (a b : Nat) :
    ∀ k, minterm a k = minterm b k → ∀ t, t < k → a.testBit t = b.testBit t := by
  intro k
  induction k with
  | zero => intro _ t ht; omega
  | succ k ih =>
    intro h t ht
    simp only [minterm, List.cons.injEq, Literal.mk.injEq, and_true] at h
    rcases Nat.lt_succ_iff_lt_or_eq.mp ht with h1 | h1
    · exact ih h.2 t h1
    · rw [h1]
      have := h.1
      cases ha : a.testBit k <;> cases hb : b.testBit k <;> simp [ha, hb] at this <;> rfl

theorem mod_eq_of_minterm_eq (a b k : Nat) (h : minterm a k = minterm b k) :
    a % 2 ^ k = b % 2 ^ k := by
  apply eq_of_testBit_below k _ _ (Nat.mod_lt _ (Nat.pow_pos (by decide)))
    (Nat.mod_lt _ (Nat.pow_pos (by decide)))
  intro t ht
  rw [Nat.testBit_mod_two_pow, Nat.testBit_mod_two_pow, testBit_eq_of_minterm_eq a b k h t ht]

theorem evalConj_minterm_self (a : Nat) : ∀ k, evalConj (bitsOf a) (minterm a k) = true := by
  intro k
  induction k with
  | zero => rfl
  | succ k ih =>
    have hcons : evalConj (bitsOf a) (minterm a (k + 1))
        = (Literal.eval (bitsOf a) { negated := !(a.testBit k), input := k }
            && evalConj (bitsOf a) (minterm a k)) := by
      simp [evalConj, minterm]
    rw [hcons, ih]
    cases h : a.testBit k <;> simp [Literal.eval, bitsOf, h]

theorem minterm_zero_negated : ∀ k, ∀ l ∈ minterm 0 k, l.negated = true := by
  intro k
  induction k with
  | zero => intro l hl; simp [minterm] at hl
  | succ k ih =>
    intro l hl
    simp only [minterm, List.mem_cons] at hl
    rcases hl with h | h
    · rw [h]; simp
    · exact ih l h

/-- C17, counterexample.  3 is not a power of two (`k = 1`, `d = 1`), and the
line of index 0 carries the minterm of 0, its own index. -/
theorem own_minterm_counterexample :
    log2n 3 = 1 ∧ 0 < 3 - 2 ^ log2n 3
      ∧ ((genDecoder (-2147483648) 3).bind (fun rows => rows[3 - 1 - 0]?)).map
          (fun r => (r.index, r.lits)) = some (0, minterm 0 (log2n 3)) := by
  decide

/-- C17, amended.  For every `n ≥ 1`, with `k = log2n n` the integer part of
its base-2 logarithm and `d = n - 2^k`, the generator returns `n` rows without
error and the line of `output(i)` carries the minterm of `i - d` cut off at 0.
When `d > 0`, no line of an index `i ≥ 1` carries the minterm of its own index
(the line of index 0 does), the lines of the indices `0 .. d` all carry the
minterm of 0, whose literals are all negated, and the lines of the indices 0
and 1 are both true when all inputs are 0: the output is not one-hot. -/
theorem genDecoder_off_power_of_two (ub : Int) (n : Nat) (hn : 1 ≤ n) :
    2 ^ log2n n ≤ n ∧ n < 2 ^ (log2n n + 1)
      ∧ ∃ rows, genDecoder ub n = some rows ∧ rows.length = n
        ∧ (∀ i, i < n → ∃ r, rows[n - 1 - i]? = some r ∧ r.index = i
            ∧ r.lits = minterm (i - (n - 2 ^ log2n n)) (log2n n))
        ∧ (0 < n - 2 ^ log2n n →
            (∀ i, 1 ≤ i → i < n → ∃ r, rows[n - 1 - i]? = some r ∧ r.index = i
                ∧ r.lits ≠ minterm i (log2n n))
            ∧ (∀ i, i ≤ n - 2 ^ log2n n → ∃ r, rows[n - 1 - i]? = some r ∧ r.index = i
                ∧ r.lits = minterm 0 (log2n n))
            ∧ (∀ l ∈ minterm 0 (log2n n), l.negated = true)
            ∧ ∃ r0 r1, rows[n - 1 - 0]? = some r0 ∧ rows[n - 1 - 1]? = some r1
                ∧ r0.index = 0 ∧ r1.index = 1
                ∧ evalConj (bitsOf 0) r0.lits = true
                ∧ evalConj (bitsOf 0) r1.lits = true) := by
  obtain ⟨hlo, hhi⟩ := log2n_bounds n hn
  obtain ⟨rows, hrows, hlen, _, hall⟩ := genDecoder_rows ub n
  have hpos : 0 < 2 ^ log2n n := Nat.pow_pos (by decide)
  have hsucc : 2 ^ (log2n n + 1) = 2 * 2 ^ log2n n := by rw [Nat.pow_succ]; ring
  have hterm : ∀ i, i < n → ∃ r, rows[n - 1 - i]? = some r ∧ r.index = i
      ∧ r.lits = minterm (i - (n - 2 ^ log2n n)) (log2n n) := by
    intro i hi
    obtain ⟨r, hr, _, hri, _, _, hv, hl⟩ := hall i hi
    refine ⟨r, hr, hri, ?_⟩
    rw [hl, litsOf_eq_minterm, hv]
    congr 1
    omega
  refine ⟨hlo, hhi, rows, hrows, hlen, hterm, ?_⟩
  intro hd
  refine ⟨?_, ?_, minterm_zero_negated _, ?_⟩
  · intro i h1 hi
    obtain ⟨r, hr, hri, hl⟩ := hterm i hi
    refine ⟨r, hr, hri, ?_⟩
    rw [hl]
    intro heq
    have hmod := mod_eq_of_minterm_eq _ _ _ heq
    rw [Nat.mod_eq_of_lt (by omega : i - (n - 2 ^ log2n n) < 2 ^ log2n n)] at hmod
    by_cases hlt : i < 2 ^ log2n n
    · rw [Nat.mod_eq_of_lt hlt] at hmod
      omega
    · rw [Nat.mod_eq_sub_mod (Nat.le_of_not_lt hlt),
        Nat.mod_eq_of_lt (by omega : i - 2 ^ log2n n < 2 ^ log2n n)] at hmod
      omega
  · intro i hi
    obtain ⟨r, hr, hri, hl⟩ := hterm i (by omega)
    refine ⟨r, hr, hri, ?_⟩
    rw [hl, Nat.sub_eq_zero_of_le hi]
  · obtain ⟨r0, hr0, hri0, hl0⟩ := hterm 0 (by omega)
    obtain ⟨r1, hr1, hri1, hl1⟩ := hterm 1 (by omega)
    refine ⟨r0, r1, hr0, hr1, hri0, hri1, ?_, ?_⟩
    · rw [hl0, Nat.zero_sub]
      exact evalConj_minterm_self 0 _
    · rw [hl1, Nat.sub_eq_zero_of_le (by omega : 1 ≤ n - 2 ^ log2n n)]
      exact evalConj_minterm_self 0 _

theorem genDecoder_off_power_of_two_witness :
    1 ≤ 6
      ∧ (2 ^ log2n 6 ≤ 6 ∧ 6 < 2 ^ (log2n 6 + 1)
      ∧ ∃ rows, genDecoder (-2147483648) 6 = some rows ∧ rows.length = 6
        ∧ (∀ i, i < 6 → ∃ r, rows[6 - 1 - i]? = some r ∧ r.index = i
            ∧ r.lits = minterm (i - (6 - 2 ^ log2n 6)) (log2n 6))
        ∧ (0 < 6 - 2 ^ log2n 6 →
            (∀ i, 1 ≤ i → i < 6 → ∃ r, rows[6 - 1 - i]? = some r ∧ r.index = i
                ∧ r.lits ≠ minterm i (log2n 6))
            ∧ (∀ i, i ≤ 6 - 2 ^ log2n 6 → ∃ r, rows[6 - 1 - i]? = some r ∧ r.index = i
                ∧ r.lits = minterm 0 (log2n 6))
            ∧ (∀ l ∈ minterm 0 (log2n 6), l.negated = true)
            ∧ ∃ r0 r1, rows[6 - 1 - 0]? = some r0 ∧ rows[6 - 1 - 1]? = some r1
                ∧ r0.index = 0 ∧ r1.index = 1
                ∧ evalConj (bitsOf 0) r0.lits = true
                ∧ evalConj (bitsOf 0) r1.lits = true)) :=
  ⟨by decide, genDecoder_off_power_of_two (-2147483648) 6 (by decide)⟩

/-- C18 (asymmetry at the top of the range).  For a vector `v` of length
`k ≥ 1`, `decrement` after `increment` gives `v` back exactly when `v` is not
all-true.  On the all-true vector `increment` wraps to the all-false vector,
whose value 0 is `(2^k - 1 + 1) mod 2^k`, and `decrement` leaves that vector
all-false. -/
theorem decrement_increment_asymmetry (v : List Bool) (hk : 1 ≤ v.length) :
    ((increment v).bind decrement = some v ↔ ¬ (∀ b ∈ v, b = true))
      ∧ increment (List.replicate v.length true) = some (List.replicate v.length false)
      ∧ value (List.replicate v.length false) = 0
      ∧ (value (List.replicate v.length true) + 1) % 2 ^ v.length = 0
      ∧ (increment (List.replicate v.length true)).bind decrement
          = some (List.replicate v.length false) := by
  have hwrap := increment_wrap v.length
  have hsat : decrement (List.replicate v.length false)
      = some (List.replicate v.length false) :=
    decrement_allFalse _ (fun b hb => (List.mem_replicate.mp hb).2)
  refine ⟨?_, hwrap, value_replicate_false _, ?_, by rw [hwrap, Option.some_bind, hsat]⟩
  · constructor
    · intro h hall
      have hv : v = List.replicate v.length true := by
        rw [List.eq_replicate_iff]; exact ⟨rfl, hall⟩
      obtain ⟨k, hk1⟩ : ∃ k, v.length = k + 1 := ⟨v.length - 1, by omega⟩
      rw [hv, hwrap, Option.some_bind, hsat, hk1] at h
      simp [List.replicate_succ] at h
    · intro hne
      have hmem : false ∈ v := by
        by_contra hc
        apply hne
        intro b hb
        cases b with
        | true => rfl
        | false => exact absurd hb hc
      obtain ⟨p, rest, rfl⟩ := split_lowest_false v hmem
      rw [increment_carry, Option.some_bind, decrement_borrow]
  · rw [value_replicate_true, Nat.mod_self]

theorem decrement_increment_asymmetry_witness :
    1 ≤ [true, true, false].length
      ∧ (((increment [true, true, false]).bind decrement = some [true, true, false]
            ↔ ¬ (∀ b ∈ [true, true, false], b = true))
        ∧ increment (List.replicate [true, true, false].length true)
            = some (List.replicate [true, true, false].length false)
        ∧ value (List.replicate [true, true, false].length false) = 0
        ∧ (value (List.replicate [true, true, false].length true) + 1)
            % 2 ^ [true, true, false].length = 0
        ∧ (increment (List.replicate [true, true, false].length true)).bind decrement
            = some (List.replicate [true, true, false].length false)) :=
  ⟨by decide, decrement_increment_asymmetry [true, true, false] (by decide)⟩

theorem readBit_none (v : List Bool) (j : Nat) (h : v.length ≤ j) : readBit v j = none := by
  simp [readBit, h]

theorem writeBit_none (v : List Bool) (j : Nat) (b : Bool) (h : v.length ≤ j) :
    writeBit v j b = none := by
  simp [writeBit]
  omega

/-- C19 (index safety).  Out-of-range accesses are `none` in the embedding,
and so is running out of fuel.  On every vector `isEmpty`, `increment` and
`decrement` return a value, so they end and every access is in range; on the
vector of length zero `decrement` returns through the `isEmpty` branch; in the
borrow branch the `for` loop returns a changed vector, so it left through
`break` and not through its end; the renderer returns on every vector when it
starts at position `length - 1` (one position higher it would not); and
`genDecoder` returns for every `n`. -/
theorem index_safety (ub : Int) (n : Nat) (v : List Bool) :
    (∀ j b, v.length ≤ j → readBit v j = none ∧ writeBit v j b = none)
      ∧ (∃ r, isEmpty v = some r)
      ∧ (∃ v1, increment v = some v1)
      ∧ (∃ v2, decrement v = some v2)
      ∧ (isEmpty [] = some true ∧ readBit [] 0 = none ∧ decrement [] = some [])
      ∧ (isEmpty v = some false → readBit v 0 = some false →
          decrement v = decrementLoop (v.length + 1) 1 v
            ∧ ∃ v3, decrementLoop (v.length + 1) 1 v = some v3 ∧ v3 ≠ v)
      ∧ (∃ lits, literalLoop v v.length = some lits)
      ∧ literalLoop v (v.length + 1) = none
      ∧ (∃ rows, genDecoder ub n = some rows) := by
  refine ⟨fun j b h => ⟨readBit_none v j h, writeBit_none v j b h⟩, ⟨_, isEmpty_eq v⟩, ?_, ?_,
    ⟨by decide, by decide, by decide⟩, ?_, ⟨_, literalLoop_eq v v.length (Nat.le_refl _)⟩, ?_, ?_⟩
  · obtain ⟨v1, h1, _⟩ := increment_value v
    exact ⟨v1, h1⟩
  · obtain ⟨v2, h2, _⟩ := decrement_value v
    exact ⟨v2, h2⟩
  · intro hE h0
    have hdef : decrement v = decrementLoop (v.length + 1) 1 v := by
      simp only [decrement, hE, h0]
    refine ⟨hdef, ?_⟩
    have hmem : true ∈ v := by
      rw [isEmpty_eq] at hE
      simpa using hE
    obtain ⟨p, rest, rfl⟩ := split_lowest_true v hmem
    rw [← hdef, decrement_borrow]
    refine ⟨_, rfl, ?_⟩
    cases p with
    | zero => simp [readBit] at h0
    | succ p => simp [List.replicate_succ]
  · simp [literalLoop, lower_range, readBit_none v v.length (Nat.le_refl _)]
  · obtain ⟨rows, hrows, _⟩ := genDecoder_rows ub n
    exact ⟨rows, hrows⟩

/-! ## intToBinaryString -/

theorem writeChar_append (pre suf : List Char) (b c : Char) :
    writeChar (pre ++ b :: suf) (pre.length : Int) c = some (pre ++ c :: suf) := by
  have h : (0 : Int) ≤ pre.length ∧ (pre.length : Int) < ((pre ++ b :: suf).length : Nat) := by
    constructor
    · omega
    · simp only [List.length_append, List.length_cons]
      omega
  simp only [writeChar, h, and_self, if_true, Int.toNat_ofNat]
  simp

theorem zeroLoop_append (rest : List Char) :
    ∀ (suf pre : List Char) (fuel size : Nat), size = pre.length + suf.length →
      suf.length < fuel →
      zeroLoop size fuel pre.length (pre ++ (suf ++ rest))
        = some (pre ++ (List.replicate suf.length '0' ++ rest)) := by
  intro suf
  induction suf with
  | nil =>
    intro pre fuel size hs hf
    cases fuel with
    | zero => simp at hf
    | succ f =>
      have : ¬ (pre.length < size) := by simp at hs; omega
      simp [zeroLoop, this]
  | cons b t ih =>
    intro pre fuel size hs hf
    cases fuel with
    | zero => simp at hf
    | succ f =>
      have hlt : pre.length < size := by simp at hs; omega
      have h2 := ih (pre ++ ['0']) f size (by simp at hs ⊢; omega) (by simpa using hf)
      simp only [List.append_assoc, List.singleton_append, List.length_append,
        List.length_singleton] at h2
      simp only [zeroLoop, hlt, if_true, List.cons_append, writeChar_append, h2,
        List.length_cons, List.replicate_succ]

theorem binMSB_zero : ∀ w, binMSB w 0 = List.replicate w '0' := by
  intro w
  induction w with
  | zero => rfl
  | succ w ih =>
    have hpos : 0 < 2 ^ w := Nat.pow_pos (by decide)
    have : ¬ (2 ^ w ≤ 0) := by omega
    simp only [binMSB, this, if_false, ih, List.replicate_succ]

theorem binMSB_top :
    ∀ (w j i : Nat), j < w → 2 ^ j ≤ i → i < 2 ^ (j + 1) →
      binMSB w i = List.replicate (w - 1 - j) '0' ++ '1' :: binMSB j (i - 2 ^ j) := by
  intro w
  induction w with
  | zero => intro j i hj; omega
  | succ w ih =>
    intro j i hj hlo hhi
    by_cases hjw : j = w
    · subst hjw
      simp [binMSB, hlo]
    · have hjlt : j < w := by omega
      have hle : 2 ^ (j + 1) ≤ 2 ^ w := Nat.pow_le_pow_right (by decide) (by omega)
      have hnot : ¬ (2 ^ w ≤ i) := by omega
      have hrep : w + 1 - 1 - j = (w - 1 - j) + 1 := by omega
      simp only [binMSB, hnot, if_false, ih j i hjlt hlo hhi, hrep, List.replicate_succ,
        List.cons_append]

theorem binMSB_length : ∀ (w x : Nat), (binMSB w x).length = w := by
  intro w
  induction w with
  | zero => intro x; rfl
  | succ w ih =>
    intro x
    by_cases h : 2 ^ w ≤ x <;> simp [binMSB, h, ih]

theorem binMSB_digits : ∀ (w x : Nat), ∀ c ∈ binMSB w x, c = '0' ∨ c = '1' := by
  intro w
  induction w with
  | zero => intro x c hc; simp [binMSB] at hc
  | succ w ih =>
    intro x c hc
    by_cases h : 2 ^ w ≤ x
    · simp only [binMSB, h, if_true, List.mem_cons] at hc
      rcases hc with hc | hc
      · exact Or.inr hc
      · exact ih _ c hc
    · simp only [binMSB, h, if_false, List.mem_cons] at hc
      rcases hc with hc | hc
      · exact Or.inl hc
      · exact ih _ c hc

theorem foldl_binMSB :
    ∀ (w x acc : Nat), x < 2 ^ w →
      (binMSB w x).foldl (fun acc c => 2 * acc + (if c = '1' then 1 else 0)) acc
        = acc * 2 ^ w + x := by
  intro w
  induction w with
  | zero =>
    intro x acc hx
    simp at hx
    simp [binMSB, hx]
  | succ w ih =>
    intro x acc hx
    rw [Nat.pow_succ] at hx
    by_cases h : 2 ^ w ≤ x
    · simp only [binMSB, h, if_true, List.foldl_cons]
      rw [ih (x - 2 ^ w) _ (by omega), Nat.pow_succ]
      have : (2 * acc + 1) * 2 ^ w = acc * (2 ^ w * 2) + 2 ^ w := by ring
      omega
    · have h0 : ¬ ('0' = '1') := by decide
      simp only [binMSB, h, if_false, List.foldl_cons, h0]
      rw [ih x _ (by omega), Nat.pow_succ]
      have : (2 * acc + 0) * 2 ^ w = acc * (2 ^ w * 2) := by ring
      omega

theorem parseBinary_binMSB (w x : Nat) (hx : x < 2 ^ w) : parseBinary (binMSB w x) = x := by
  have h := foldl_binMSB w x 0 hx
  simpa [parseBinary] using h

theorem onesLoop_append (rest : List Char) :
    ∀ (fuel w i : Nat) (pre : List Char) (size : Nat), size = pre.length + w →
      i < 2 ^ w → w < fuel →
      onesLoop size fuel i (pre ++ (List.replicate w '0' ++ rest))
        = some (pre ++ (binMSB w i ++ rest)) := by
  intro fuel
  induction fuel with
  | zero => intro w i pre size _ _ hf; omega
  | succ f ih =>
    intro w i pre size hs hi hf
    by_cases h0 : i = 0
    · subst h0
      simp [onesLoop, binMSB_zero]
    · have hpos : i > 0 := by omega
      have hlog : floorLog 2 i i = Nat.log 2 i :=
        floorLog_eq_log 2 (by decide) i i (Nat.le_refl i)
      have hj : Nat.log 2 i < w := Nat.log_lt_of_lt_pow h0 hi
      have hlo : 2 ^ Nat.log 2 i ≤ i := Nat.pow_log_le_self 2 h0
      have hhi : i < 2 ^ (Nat.log 2 i + 1) := Nat.lt_pow_succ_log_self (by decide) i
      have hhi2 : i - 2 ^ Nat.log 2 i < 2 ^ Nat.log 2 i := by
        rw [Nat.pow_succ] at hhi
        omega
      have hidx : (size : Int) - (Nat.log 2 i : Int) - 1
          = ((pre ++ List.replicate (w - 1 - Nat.log 2 i) '0').length : Nat) := by
        simp only [List.length_append, List.length_replicate]
        omega
      have hsplit : List.replicate w '0'
          = List.replicate (w - 1 - Nat.log 2 i) '0' ++ '0' :: List.replicate (Nat.log 2 i) '0' := by
        have hw : w = (w - 1 - Nat.log 2 i) + (Nat.log 2 i + 1) := by omega
        conv_lhs => rw [hw]
        rw [List.replicate_add, List.replicate_succ]
      have hstr : pre ++ (List.replicate w '0' ++ rest)
          = (pre ++ List.replicate (w - 1 - Nat.log 2 i) '0')
              ++ '0' :: (List.replicate (Nat.log 2 i) '0' ++ rest) := by
        rw [hsplit]
        simp
      have h2 := ih (Nat.log 2 i) (i - 2 ^ Nat.log 2 i)
        (pre ++ List.replicate (w - 1 - Nat.log 2 i) '0' ++ ['1']) size
        (by simp only [List.length_append, List.length_replicate, List.length_singleton]; omega)
        hhi2 (by omega)
      simp only [List.append_assoc, List.singleton_append] at h2
      simp only [onesLoop, hpos, if_true, hlog]
      rw [hidx, hstr, writeChar_append]
      simp only [List.append_assoc]
      rw [h2, binMSB_top w (Nat.log 2 i) i hj hlo hhi]
      simp

theorem takeWhile_until (l : List Char) (a : Char) (rest : List Char)
    (hl : ∀ c ∈ l, c ≠ a) :
    (l ++ a :: rest).takeWhile (fun c => c != a) = l := by
  induction l with
  | nil => simp [List.takeWhile]
  | cons b t ih =>
    have hb : b ≠ a := hl b (List.mem_cons_self b t)
    have ht := ih (fun c hc => hl c (List.mem_cons_of_mem b hc))
    have hbne : (b != a) = true := by simpa using hb
    simp [List.takeWhile, hbne, ht]

/-- C20 (intToBinaryString).  For every `i ≥ 1`, whatever the array holds at
first, `intToBinaryString` returns a string made only of the characters `0`
and `1`, of length `⌊log2 i⌋ + 1`, that starts with `1` and reads as `i` in
base 2, most significant digit first. -/
theorem intToBinaryString_spec (junk : Char) (i : Nat) (hi : 1 ≤ i) :
    ∃ s, intToBinaryString junk i = some s
      ∧ (∀ c ∈ s.data, c = '0' ∨ c = '1')
      ∧ s.length = Nat.log 2 i + 1
      ∧ floorLog 2 i i = Nat.log 2 i
      ∧ s.data.head? = some '1'
      ∧ parseBinary s.data = i := by
  have h0 : i ≠ 0 := by omega
  have hlog : floorLog 2 i i = Nat.log 2 i :=
    floorLog_eq_log 2 (by decide) i i (Nat.le_refl i)
  have hlo : 2 ^ Nat.log 2 i ≤ i := Nat.pow_log_le_self 2 h0
  have hhi : i < 2 ^ (Nat.log 2 i + 1) := Nat.lt_pow_succ_log_self (by decide) i
  have hzero := zeroLoop_append [junk] (List.replicate (Nat.log 2 i + 1) junk) []
    (Nat.log 2 i + 1 + 1) (Nat.log 2 i + 1) (by simp) (by simp)
  have hones := onesLoop_append [junk] (Nat.log 2 i + 1 + 1) (Nat.log 2 i + 1) i []
    (Nat.log 2 i + 1) (by simp) hhi (by omega)
  have hinit : List.replicate (Nat.log 2 i + 1 + 1) junk
      = [] ++ (List.replicate (Nat.log 2 i + 1) junk ++ [junk]) := by
    rw [List.nil_append, ← List.replicate_succ']
  simp only [List.length_nil, List.length_replicate] at hzero
  simp only [List.nil_append] at hzero hones hinit
  have hwrite := writeChar_append (binMSB (Nat.log 2 i + 1) i) [] junk (Char.ofNat 0)
  rw [binMSB_length] at hwrite
  have hne : ∀ c ∈ binMSB (Nat.log 2 i + 1) i, c ≠ Char.ofNat 0 := by
    intro c hc
    rcases binMSB_digits _ _ c hc with h | h <;> rw [h] <;> decide
  have htake := takeWhile_until (binMSB (Nat.log 2 i + 1) i) (Char.ofNat 0) [] hne
  have hres : intToBinaryString junk i = some (String.mk (binMSB (Nat.log 2 i + 1) i)) := by
    simp only [intToBinaryString, hlog, hinit, hzero, hones, hwrite, cString, htake]
    simp
  refine ⟨_, hres, binMSB_digits _ _, by simp [binMSB_length], hlog, ?_,
    parseBinary_binMSB _ _ hhi⟩
  simp [binMSB, hlo]

theorem intToBinaryString_spec_witness :
    1 ≤ 12
      ∧ ∃ s, intToBinaryString 'x' 12 = some s
        ∧ (∀ c ∈ s.data, c = '0' ∨ c = '1')
        ∧ s.length = Nat.log 2 12 + 1
        ∧ floorLog 2 12 12 = Nat.log 2 12
        ∧ s.data.head? = some '1'
        ∧ parseBinary s.data = 12 :=
  ⟨by decide, intToBinaryString_spec 'x' 12 (by decide)⟩

end SingleLevelDecoder
